import Mathlib

/-!
# GopherDrive — verification of the asynchronous job-processing pipeline

Shallow embedding of the core of the GopherDrive repository:

* `internal/hasher` (`ComputeMetadata`, `analyzeImage`, `analyzeText`):
  file contents are byte lists (`List Nat`, each byte `< 256` where it
  matters); the standard-library collaborators that the package calls —
  `crypto/sha256` + `hex`, `http.DetectContentType`, `image.DecodeConfig` —
  are abstracted as function parameters, since the spec treats them as
  opaque primitives; the byte-stream mechanics (read a 512-byte head,
  seek back to the start, stream the whole file, re-open for category
  analysis, `bufio.ScanLines`, `bytes.Fields`) are modelled concretely.
* `internal/worker` (`Pool`, `Submit`, `Shutdown`, `worker`, `process`):
  a labelled transition system over an explicit pool state, one
  transition per Go channel interaction.
* `main.handleResults`: a fold over the drained result list that records
  the repository calls it makes.
-/

namespace GopherDrive

/-! ## Errors

Go `error` values produced by the embedded code.  `CtxErr` models
`context.Canceled` / `context.DeadlineExceeded`, the only values
`ctx.Err()` can return. -/

inductive CtxErr
  | canceled
  | deadlineExceeded
deriving DecidableEq, Repr

/-- Errors of the embedded pipeline.  `openErr` models the wrapped
`os.Open` failure (`"hasher: open file"` / the open failures inside
`analyzeImage`/`analyzeText`), `decodeErr` an `image.DecodeConfig`
failure, and the two cancellation constructors model the wrapped
`fmt.Errorf("job cancelled before/during processing: %w", err)` values
built in `Pool.process`. -/
inductive GoError
  | openErr (path : String)
  | decodeErr (msg : String)
  | cancelledBefore (e : CtxErr)
  | cancelledDuring (e : CtxErr)
deriving DecidableEq, Repr

/-! ## Metadata model -/

/-- A value stored in the `map[string]interface{}` metadata bundle:
the code only ever stores strings (`mime_type`) and non-negative
integers (`width`, `height`, `lines`, `words`). -/
inductive MetaVal
  | str (s : String)
  | int (n : Nat)
deriving DecidableEq, Repr

/-- `hasher.Metadata`: hash (hex-encoded SHA256), size in bytes,
filename extension and the rich metadata map (modelled as an
association list; all keys the code inserts are distinct). -/
structure Metadata where
  hash : String
  size : Nat
  extension : String
  extra : List (String × MetaVal)
deriving DecidableEq, Repr

/-! ## File handles

An `os.File` is a byte content plus a read position.  `goReadN` models
`f.Read(buf)` with `len(buf) = n` (returns at most `n` bytes from the
current position and advances it; at EOF it returns zero bytes, which
the caller treats as `io.EOF`), `goSeekStart` models `f.Seek(0, 0)` and
`goCopyAll` models `io.Copy(h, f)` — it consumes everything from the
current position to EOF and reports the bytes fed to the hash together
with the byte count.  A file system is a partial map from paths to
contents; `os.Open` fails exactly on paths outside its domain. -/

structure GoFile where
  content : List Nat
  pos : Nat
deriving DecidableEq, Repr

def goReadN (f : GoFile) (n : Nat) : List Nat × GoFile :=
  ((f.content.drop f.pos).take n, { f with pos := min (f.pos + n) f.content.length })

def goSeekStart (f : GoFile) : GoFile :=
  { f with pos := 0 }

def goCopyAll (f : GoFile) : List Nat × Nat × GoFile :=
  let rest := f.content.drop f.pos
  (rest, rest.length, { f with pos := f.content.length })

/-- `strings.HasPrefix`. -/
def goHasPrefix (s pre : String) : Bool :=
  pre.data.isPrefixOf s.data

/-- `filepath.Ext`: the suffix of the final slash-separated element of
`path` beginning at its final dot, or `""` if there is no dot.  The Go
implementation scans backwards from the end, stopping at a path
separator; `go` receives the reversed character list and the characters
already passed (in original order). -/
def goExt (path : String) : String :=
  go path.data.reverse []
where
  go : List Char → List Char → String
    | [], _ => ""
    | c :: rcs, acc =>
      if c = '/' then ""
      else if c = '.' then String.mk (c :: acc)
      else go rcs (c :: acc)

/-! ## `analyzeText`: `bufio.Scanner` with `ScanLines`, and `bytes.Fields`

`bufio.ScanLines` yields maximal `'\n'`-free chunks; each returned line
additionally has one trailing `'\r'` stripped (`dropCR`), and a final
chunk without a terminating newline is still returned.  The scanner
buffers at most `bufio.MaxScanTokenSize = 64*1024` bytes: as soon as
the next chunk is 65536 bytes or longer, `Scan` returns `false` with
`ErrTooLong` before emitting it (a newline-terminated line of length L
needs L+1 buffered bytes, and an `os.File` only reports EOF on the read
after the last data, so in both cases length ≥ 65536 overflows the full
65536-byte buffer).  The source ignores `scanner.Err()`, so the loop
just stops and the counts accumulated so far stand.  `bytes.Fields`
counts maximal runs of non-whitespace bytes; we model its ASCII path
(bytes `≥ 0x80` make the Go implementation fall back to UTF-8 rune
decoding with `unicode.IsSpace`, which is not modelled — the text
theorems therefore restrict contents to ASCII bytes). -/

/-- `bufio.MaxScanTokenSize = 64 * 1024`, the scanner's default
maximum buffer size. -/
def maxScanTokenSize : Nat := 65536

/-- ASCII whitespace per Go's `asciiSpace` table in `bytes.Fields`:
`'\t' '\n' '\v' '\f' '\r' ' '`. -/
def asciiSpace (b : Nat) : Bool :=
  b = 9 || b = 10 || b = 11 || b = 12 || b = 13 || b = 32

/-- `dropCR` from `bufio`: drop a single terminal `'\r'`. -/
def dropCR (l : List Nat) : List Nat :=
  if l.getLast? = some 13 then l.dropLast else l

/-- Split off everything before the first `'\n'`; the second component
is `some rest` when a newline was found (with `rest` the bytes after
it) and `none` otherwise. -/
def splitFirstLine : List Nat → List Nat × Option (List Nat)
  | [] => ([], none)
  | b :: rest =>
    if b = 10 then ([], some rest)
    else
      let p := splitFirstLine rest
      (b :: p.1, p.2)

theorem splitFirstLine_none : ∀ {l t : List Nat}, splitFirstLine l = (t, none) → l = t := by
  intro l
  induction l with
  | nil =>
    intro t h
    simp only [splitFirstLine, Prod.mk.injEq] at h
    simp [h.1]
  | cons b rest ih =>
    intro t h
    by_cases hb : b = 10
    · simp [splitFirstLine, hb] at h
    · rcases hq : splitFirstLine rest with ⟨t', o⟩
      simp only [splitFirstLine, hb, if_false, hq] at h
      cases o with
      | some r => simp at h
      | none =>
        simp only [Prod.mk.injEq] at h
        rw [← h.1, ih hq]

theorem splitFirstLine_some :
    ∀ {l t r : List Nat}, splitFirstLine l = (t, some r) →
      l = t ++ 10 :: r ∧ r.length < l.length := by
  intro l
  induction l with
  | nil => intro t r h; simp [splitFirstLine] at h
  | cons b rest ih =>
    intro t r h
    by_cases hb : b = 10
    · simp only [splitFirstLine, hb, if_true, Prod.mk.injEq, Option.some.injEq] at h
      subst hb
      rw [← h.1, ← h.2]
      simp
    · rcases hq : splitFirstLine rest with ⟨t', o⟩
      simp only [splitFirstLine, hb, if_false, hq] at h
      cases o with
      | none => simp at h
      | some r' =>
        simp only [Prod.mk.injEq, Option.some.injEq] at h
        obtain ⟨h1, h2⟩ := h
        subst h2
        obtain ⟨he, hl⟩ := ih hq
        constructor
        · rw [← h1, he]; simp
        · simpa using Nat.lt_succ_of_lt hl

/-- The sequence of lines the `for scanner.Scan()` loop visits: each
maximal `'\n'`-free chunk shorter than `maxScanTokenSize`, up to (and
not including) the first chunk of length ≥ `maxScanTokenSize`, at which
`Scan` fails with the unchecked `ErrTooLong` and the loop stops. -/
def scanLines (l : List Nat) : List (List Nat) :=
  if h : l = [] then []
  else
    match hsp : splitFirstLine l with
    | (t, none) => if t.length < maxScanTokenSize then [dropCR t] else []
    | (t, some r) =>
      if t.length < maxScanTokenSize then dropCR t :: scanLines r else []
termination_by l.length
decreasing_by exact (splitFirstLine_some hsp).2

/-- The field-counting state machine of `bytes.Fields` (ASCII path):
`wasSpace` is true initially and after every whitespace byte; each
non-space byte seen while `wasSpace` starts one new field. -/
def fieldsGo : List Nat → Bool → Nat
  | [], _ => 0
  | b :: rest, wasSpace =>
    (if wasSpace ∧ ¬ asciiSpace b then 1 else 0) + fieldsGo rest (asciiSpace b)

/-- `len(bytes.Fields(s))` for ASCII `s`. -/
def fieldsLen (s : List Nat) : Nat :=
  fieldsGo s true

/-- `analyzeText`: re-open the file, count scanner lines and the
whitespace-delimited words on each line. -/
def analyzeText (fs : String → Option (List Nat)) (path : String) :
    Except GoError (List (String × MetaVal)) :=
  match fs path with
  | none => .error (.openErr path)
  | some content =>
    let ls := scanLines content
    .ok [("lines", .int ls.length), ("words", .int (ls.map fieldsLen).sum)]

/-- `analyzeImage`: re-open the file and decode only the image header
(`image.DecodeConfig`, abstracted as `decodeConfig`) for width/height. -/
def analyzeImage (decodeConfig : List Nat → Except String (Nat × Nat))
    (fs : String → Option (List Nat)) (path : String) :
    Except GoError (List (String × MetaVal)) :=
  match fs path with
  | none => .error (.openErr path)
  | some content =>
    match decodeConfig content with
    | .error e => .error (.decodeErr e)
    | .ok (w, h) => .ok [("width", .int w), ("height", .int h)]

/-- `hasher.ComputeMetadata`.  Parameters:

* `sha256hex` — hex-encoded SHA-256 of a byte sequence (`crypto/sha256`
  plus `hex.EncodeToString`, abstracted);
* `detectContentType` — `http.DetectContentType` (abstracted);
* `decodeConfig` — `image.DecodeConfig` (abstracted);
* `fs` — the file system at the time of the first `os.Open`;
* `fsReopen` — the file system at the time of the second `os.Open`
  performed by `analyzeImage`/`analyzeText` (the two opens happen at
  different times, so the file may have disappeared in between).

The body follows the source: open, read a 512-byte head for MIME
sniffing, seek back to the start, stream the remainder through the
hash while counting bytes, then best-effort category enrichment. -/
def computeMetadata (sha256hex : List Nat → String)
    (detectContentType : List Nat → String)
    (decodeConfig : List Nat → Except String (Nat × Nat))
    (fs fsReopen : String → Option (List Nat)) (filePath : String) :
    Except GoError Metadata :=
  match fs filePath with
  | none => .error (.openErr filePath)
  | some content =>
    let f : GoFile := { content := content, pos := 0 }
    let (head, f) := goReadN f 512
    let mimeType := detectContentType head
    let f := goSeekStart f
    let (hashed, size, _) := goCopyAll f
    let hash := sha256hex hashed
    let extra := [("mime_type", MetaVal.str mimeType)]
    let extra :=
      if goHasPrefix mimeType "image/" then
        match analyzeImage decodeConfig fsReopen filePath with
        | .ok kvs => extra ++ kvs
        | .error _ => extra
      else if goHasPrefix mimeType "text/" then
        match analyzeText fsReopen filePath with
        | .ok kvs => extra ++ kvs
        | .error _ => extra
      else extra
    .ok { hash := hash, size := size, extension := goExt filePath, extra := extra }

/-! ## `internal/worker`: jobs, results and `Pool.process`

A Go `context.Context` is observed by `Pool.process` exactly twice:
`ctx.Err()` before the analysis and `ctx.Err()` after it.  `JobCtx`
records those two observations; a context already cancelled before
dispatch has `errBefore = some e`.  `Job.ctx = none` models a `nil`
context field, for which `process` substitutes `context.Background()`
(never cancelled). -/

structure JobCtx where
  errBefore : Option CtxErr
  errAfter : Option CtxErr
deriving DecidableEq, Repr

structure Job where
  ctx : Option JobCtx
  fileID : String
  filePath : String
deriving DecidableEq, Repr

/-- `worker.Result`.  A Go struct literal leaves unmentioned fields at
their zero values: `""` for strings, `0` for `int64`, `nil` (`none`)
for the map and the error. -/
structure Result where
  fileID : String
  hash : String
  size : Nat
  extension : String
  metadata : Option (List (String × MetaVal))
  err : Option GoError
deriving DecidableEq, Repr

/-- `Pool.process` as a function from the job (and the analyzer used,
`hasher.ComputeMetadata`, passed as `analyzer`) to the single `Result`
it sends on the results channel.  Mirrors the source: nil-context
fallback, pre-dispatch cancellation check, analysis, post-analysis
cancellation check, then error/success result. -/
def process (analyzer : String → Except GoError Metadata) (job : Job) : Result :=
  let ctx := job.ctx.getD { errBefore := none, errAfter := none }
  match ctx.errBefore with
  | some e =>
    { fileID := job.fileID, hash := "", size := 0, extension := ""
      metadata := none, err := some (.cancelledBefore e) }
  | none =>
    let res := analyzer job.filePath
    match ctx.errAfter with
    | some e =>
      { fileID := job.fileID, hash := "", size := 0, extension := ""
        metadata := none, err := some (.cancelledDuring e) }
    | none =>
      match res with
      | .error e =>
        { fileID := job.fileID, hash := "", size := 0, extension := ""
          metadata := none, err := some e }
      | .ok meta =>
        { fileID := job.fileID, hash := meta.hash, size := meta.size
          extension := meta.extension, metadata := some meta.extra, err := none }

/-! ## The pool as a labelled transition system

One transition per Go channel interaction.  State fields mirror the
`Pool` struct plus the channel contents and ghost histories:

* `jobsBuf`/`jobsCap`/`jobsClosed` — the buffered `jobs` channel;
* `resultsBuf`/`resultsCap`/`resultsClosed` — the buffered `results`
  channel;
* `poolCtxCancelled` — whether `p.cancel()` has run.  No code in this
  repository ever calls it, so no transition sets this flag;
* `workers` — one `WorkerPhase` per goroutine launched by `Start`;
* `accepted` — ghost: jobs for which `Submit` returned `true`, in order;
* `pushed` — ghost: results sent on the results channel, in order;
* `consumed` — ghost: results received by the consumer, in order;
* `submitCrashed` — ghost: some `Submit` call hit the Go runtime panic
  "send on closed channel". -/

inductive WorkerPhase
  | idle
  | busy (job : Job)
  | done
deriving DecidableEq, Repr

structure PoolState where
  jobsBuf : List Job
  jobsCap : Nat
  jobsClosed : Bool
  resultsBuf : List Result
  resultsCap : Nat
  resultsClosed : Bool
  poolCtxCancelled : Bool
  workers : List WorkerPhase
  accepted : List Job
  pushed : List Result
  consumed : List Result
  submitCrashed : Bool
deriving DecidableEq, Repr

/-- `NewPool(workers, logger)` followed by `Start()`: both channel
capacities are `workers*2` (the logger carries no pool state and is
omitted), the context is fresh (not cancelled), and `Start` launches
exactly `workers` goroutines, all idle in their `select`. -/
def NewPool (workers : Nat) : PoolState :=
  { jobsBuf := [], jobsCap := workers * 2, jobsClosed := false
    resultsBuf := [], resultsCap := workers * 2, resultsClosed := false
    poolCtxCancelled := false
    workers := List.replicate workers .idle
    accepted := [], pushed := [], consumed := [], submitCrashed := false }

/-- Transition labels, for stating which operation a step models. -/
inductive Event
  | submitTrue (j : Job)
  | submitFalse (j : Job)
  | submitOnClosed (j : Job)
  | shutdownCloseJobs
  | workerTake (i : Nat)
  | workerFinish (i : Nat)
  | workerExitClosed (i : Nat)
  | workerExitCancelled (i : Nat)
  | closeResults
  | consumerTake (r : Result)
deriving DecidableEq, Repr

/-- The pool's small-step semantics, parametrised by the analyzer
(`hasher.ComputeMetadata`).

* `submitTrue` — `Submit`'s `case p.jobs <- job` succeeds: needs the
  channel open and buffer space, records acceptance.
* `submitFalse` — `Submit`'s `case <-p.ctx.Done()` fires: only enabled
  if the pool context has been cancelled.
* `submitOnClosed` — `Submit`'s send case on a closed channel: the Go
  runtime panics; the job is not enqueued.
* `shutdownCloseJobs` — `Shutdown`'s `close(p.jobs)` (single call).
* `workerTake` — worker `i` receives a buffered job.
* `workerFinish` — worker `i` sends `process` of its job on the
  results channel (needs buffer space).
* `workerExitClosed` — worker `i` sees the jobs channel closed and
  drained (`ok == false`) and returns.
* `workerExitCancelled` — worker `i`'s `case <-p.ctx.Done()`: only
  enabled if the pool context has been cancelled.
* `closeResults` — `Shutdown`'s `close(p.results)`, which runs only
  after `p.wg.Wait()`, i.e. after every worker has returned.
* `consumerTake` — the results consumer receives a buffered result
  (possible also after close, draining the buffer). -/
inductive Step (analyzer : String → Except GoError Metadata) :
    PoolState → Event → PoolState → Prop
  | submitTrue (s : PoolState) (j : Job)
      (hopen : s.jobsClosed = false) (hcap : s.jobsBuf.length < s.jobsCap) :
      Step analyzer s (.submitTrue j)
        { s with jobsBuf := s.jobsBuf ++ [j], accepted := s.accepted ++ [j] }
  | submitFalse (s : PoolState) (j : Job)
      (hcancel : s.poolCtxCancelled = true) :
      Step analyzer s (.submitFalse j) s
  | submitOnClosed (s : PoolState) (j : Job)
      (hclosed : s.jobsClosed = true) :
      Step analyzer s (.submitOnClosed j) { s with submitCrashed := true }
  | shutdownCloseJobs (s : PoolState)
      (hopen : s.jobsClosed = false) :
      Step analyzer s .shutdownCloseJobs { s with jobsClosed := true }
  | workerTake (s : PoolState) (i : Nat) (j : Job) (rest : List Job)
      (hidle : s.workers[i]? = some .idle) (hbuf : s.jobsBuf = j :: rest) :
      Step analyzer s (.workerTake i)
        { s with jobsBuf := rest, workers := s.workers.set i (.busy j) }
  | workerFinish (s : PoolState) (i : Nat) (j : Job)
      (hbusy : s.workers[i]? = some (.busy j))
      (hcap : s.resultsBuf.length < s.resultsCap) :
      Step analyzer s (.workerFinish i)
        { s with resultsBuf := s.resultsBuf ++ [process analyzer j]
                 pushed := s.pushed ++ [process analyzer j]
                 workers := s.workers.set i .idle }
  | workerExitClosed (s : PoolState) (i : Nat)
      (hidle : s.workers[i]? = some .idle)
      (hclosed : s.jobsClosed = true) (hempty : s.jobsBuf = []) :
      Step analyzer s (.workerExitClosed i) { s with workers := s.workers.set i .done }
  | workerExitCancelled (s : PoolState) (i : Nat)
      (hidle : s.workers[i]? = some .idle)
      (hcancel : s.poolCtxCancelled = true) :
      Step analyzer s (.workerExitCancelled i) { s with workers := s.workers.set i .done }
  | closeResults (s : PoolState)
      (hclosed : s.jobsClosed = true)
      (hdone : ∀ ph ∈ s.workers, ph = WorkerPhase.done)
      (hnot : s.resultsClosed = false) :
      Step analyzer s .closeResults { s with resultsClosed := true }
  | consumerTake (s : PoolState) (r : Result) (rest : List Result)
      (hbuf : s.resultsBuf = r :: rest) :
      Step analyzer s (.consumerTake r)
        { s with resultsBuf := rest, consumed := s.consumed ++ [r] }

/-- States reachable from a freshly started pool of `w` workers. -/
inductive Reachable (analyzer : String → Except GoError Metadata) (w : Nat) :
    PoolState → Prop
  | init : Reachable analyzer w (NewPool w)
  | step {s e s'} : Reachable analyzer w s → Step analyzer s e s' →
      Reachable analyzer w s'

/-- The jobs currently held by busy workers. -/
def busyJobs (ws : List WorkerPhase) : List Job :=
  ws.filterMap fun ph => match ph with
    | .busy j => some j
    | _ => none

/-! ## `main.handleResults`: the results consumer

The repository collaborator is an oracle giving each update call's
outcome; `handleResults` records the calls it performs, in order.  Per
result: failures get a single `UpdateStatus "failed"` (its own failure
is only logged); successes get `UpdateMetadata`, then — only if that
succeeded — `UpdateStatus "completed"`.  The loop always proceeds to
the next result. -/

inductive RepoCall
  | updateStatus (fileID status : String)
  | updateMetadata (fileID hash : String) (size : Nat)
      (metadata : Option (List (String × MetaVal)))
deriving DecidableEq, Repr

structure Repo where
  statusOutcome : String → String → Except String Unit
  metadataOutcome : String → String → Nat → Option (List (String × MetaVal)) →
    Except String Unit

/-- The repository calls made for one drained result. -/
def handleResult (repo : Repo) (res : Result) : List RepoCall :=
  match res.err with
  | some _ => [.updateStatus res.fileID "failed"]
  | none =>
    RepoCall.updateMetadata res.fileID res.hash res.size res.metadata ::
      match repo.metadataOutcome res.fileID res.hash res.size res.metadata with
      | .error _ => []
      | .ok _ => [.updateStatus res.fileID "completed"]

/-- `handleResults`: `for res := range results` over the drained
result sequence. -/
def handleResults (repo : Repo) (results : List Result) : List RepoCall :=
  match results with
  | [] => []
  | res :: rest => handleResult repo res ++ handleResults repo rest

/-! ## Helper lemmas about `computeMetadata` -/

/-- The only failure `computeMetadata` can produce is the open error:
reads and seeks on the modelled file never fail, and category-analyzer
failures are swallowed. -/
theorem computeMetadata_error_isOpen
    {sha256hex : List Nat → String} {detectContentType : List Nat → String}
    {decodeConfig : List Nat → Except String (Nat × Nat)}
    {fs fsReopen : String → Option (List Nat)} {filePath : String} {e : GoError}
    (h : computeMetadata sha256hex detectContentType decodeConfig fs fsReopen filePath =
      .error e) :
    e = .openErr filePath := by
  unfold computeMetadata at h
  cases hfs : fs filePath with
  | none => rw [hfs] at h; cases h; rfl
  | some content => rw [hfs] at h; simp at h

/-! ## Claim theorems: `Pool.process` -/

/-- **C4.** A job whose context is already cancelled before dispatch
yields a `cancelledBefore` failure result (never a success), and the
result does not depend on the analyzer at all — the streaming analysis
pass is not performed. -/
theorem process_cancelled_before_dispatch
    (a₁ a₂ : String → Except GoError Metadata) (job : Job) (c : JobCtx) (e : CtxErr)
    (hctx : job.ctx = some c) (hbefore : c.errBefore = some e) :
    process a₁ job =
      { fileID := job.fileID, hash := "", size := 0, extension := ""
        metadata := none, err := some (.cancelledBefore e) }
    ∧ process a₁ job = process a₂ job := by
  constructor <;> simp [process, hctx, hbefore]

/-- Witness for `process_cancelled_before_dispatch`: a concrete job with
an already-cancelled context, processed under two different analyzers. -/
theorem process_cancelled_before_dispatch_witness :
    process (fun _ => .error (.openErr "x"))
        { ctx := some { errBefore := some .canceled, errAfter := some .canceled }
          fileID := "f1", filePath := "/tmp/a.txt" } =
      { fileID := "f1", hash := "", size := 0, extension := ""
        metadata := none, err := some (.cancelledBefore .canceled) } :=
  (process_cancelled_before_dispatch
    (fun _ => .error (.openErr "x"))
    (fun _ => .ok { hash := "", size := 0, extension := "", extra := [] })
    { ctx := some { errBefore := some .canceled, errAfter := some .canceled }
      fileID := "f1", filePath := "/tmp/a.txt" }
    { errBefore := some .canceled, errAfter := some .canceled }
    .canceled rfl rfl).1

/-- **C9.** A job with a `nil` context is processed under the
never-cancelled background context: the result carries the job's id,
is a success exactly when the analyzer succeeds, propagates the
analyzer's (open) error otherwise, and is never a cancellation
failure. -/
theorem process_nil_context_normal
    (sha256hex : List Nat → String) (detectContentType : List Nat → String)
    (decodeConfig : List Nat → Except String (Nat × Nat))
    (fs fsReopen : String → Option (List Nat)) (job : Job)
    (hctx : job.ctx = none) :
    (process (computeMetadata sha256hex detectContentType decodeConfig fs fsReopen)
        job).fileID = job.fileID
    ∧ ((process (computeMetadata sha256hex detectContentType decodeConfig fs fsReopen)
        job).err = none ↔
        ∃ md, computeMetadata sha256hex detectContentType decodeConfig fs fsReopen
          job.filePath = .ok md)
    ∧ (∀ e, computeMetadata sha256hex detectContentType decodeConfig fs fsReopen
          job.filePath = .error e →
        (process (computeMetadata sha256hex detectContentType decodeConfig fs fsReopen)
          job).err = some e)
    ∧ (∀ e, (process (computeMetadata sha256hex detectContentType decodeConfig fs fsReopen)
          job).err ≠ some (.cancelledBefore e)
        ∧ (process (computeMetadata sha256hex detectContentType decodeConfig fs fsReopen)
          job).err ≠ some (.cancelledDuring e)) := by
  cases hr : computeMetadata sha256hex detectContentType decodeConfig fs fsReopen
      job.filePath with
  | error e =>
    have he := computeMetadata_error_isOpen hr
    refine ⟨by simp [process, hctx, hr], ?_, ?_, ?_⟩
    · simp [process, hctx, hr]
    · intro e' h'; cases h'; simp [process, hctx, hr]
    · intro e'; subst he; simp [process, hctx, hr]
  | ok md =>
    refine ⟨by simp [process, hctx, hr], ?_, ?_, ?_⟩
    · simp [process, hctx, hr]
    · intro e' h'; cases h'
    · intro e'; simp [process, hctx, hr]

/-- Witness for `process_nil_context_normal`: a concrete nil-context job
over a one-file file system. -/
theorem process_nil_context_normal_witness :
    (process (computeMetadata (fun _ => "h") (fun _ => "text/plain")
        (fun _ => .error "not an image")
        (fun p => if p = "/tmp/a.txt" then some [104, 105] else none)
        (fun p => if p = "/tmp/a.txt" then some [104, 105] else none))
      { ctx := none, fileID := "f1", filePath := "/tmp/a.txt" }).fileID = "f1" :=
  (process_nil_context_normal (fun _ => "h") (fun _ => "text/plain")
    (fun _ => .error "not an image")
    (fun p => if p = "/tmp/a.txt" then some [104, 105] else none)
    (fun p => if p = "/tmp/a.txt" then some [104, 105] else none)
    { ctx := none, fileID := "f1", filePath := "/tmp/a.txt" } rfl).1

/-- **C10.** Every failure result carries only the job id and the
error: hash and extension are empty, size is zero and the metadata map
is nil. -/
theorem failure_result_no_partial_output
    (a : String → Except GoError Metadata) (job : Job)
    (h : (process a job).err ≠ none) :
    (process a job).hash = "" ∧ (process a job).size = 0
    ∧ (process a job).extension = "" ∧ (process a job).metadata = none := by
  rcases hb : (job.ctx.getD { errBefore := none, errAfter := none }).errBefore with _ | e
  · rcases ha : (job.ctx.getD { errBefore := none, errAfter := none }).errAfter with _ | e'
    · rcases hr : a job.filePath with e'' | md
      · simp [process, hb, ha, hr]
      · simp [process, hb, ha, hr] at h
    · simp [process, hb, ha]
  · simp [process, hb]

/-- Witness for `failure_result_no_partial_output`: an analyzer failure
on a concrete job. -/
theorem failure_result_no_partial_output_witness :
    (process (fun p => .error (.openErr p))
        { ctx := none, fileID := "f1", filePath := "/missing" }).hash = "" :=
  (failure_result_no_partial_output (fun p => .error (.openErr p))
    { ctx := none, fileID := "f1", filePath := "/missing" } (by simp [process])).1

/-! ## Claim theorems: the analyzer -/

/-- **C3.** For every readable content source, the 512-byte
classification peek does not consume bytes needed for hashing: the
digest is the (abstracted) hex-encoded SHA-256 of the *entire* byte
content — not of the stream left over after the peek — and the size is
the total byte count. -/
theorem computeMetadata_digest_entire_content
    (sha256hex : List Nat → String) (detectContentType : List Nat → String)
    (decodeConfig : List Nat → Except String (Nat × Nat))
    (fs fsReopen : String → Option (List Nat)) (path : String) (content : List Nat)
    (hopen : fs path = some content) :
    ∃ md, computeMetadata sha256hex detectContentType decodeConfig fs fsReopen path =
        .ok md
      ∧ md.hash = sha256hex content ∧ md.size = content.length := by
  unfold computeMetadata
  rw [hopen]
  refine ⟨_, rfl, ?_, ?_⟩ <;> simp [goReadN, goSeekStart, goCopyAll]

/-- Witness for `computeMetadata_digest_entire_content`: a concrete
3-byte file. -/
theorem computeMetadata_digest_entire_content_witness :
    ∃ md, computeMetadata (fun _ => "digest") (fun _ => "application/pdf")
        (fun _ => .error "no") (fun _ => some [1, 2, 3]) (fun _ => none) "/tmp/f" =
        .ok md
      ∧ md.hash = "digest" ∧ md.size = 3 :=
  computeMetadata_digest_entire_content (fun _ => "digest") (fun _ => "application/pdf")
    (fun _ => .error "no") (fun _ => some [1, 2, 3]) (fun _ => none) "/tmp/f"
    [1, 2, 3] rfl

/-- **C6.** Category enrichment is best-effort: if the image analyzer
fails on an image MIME type, or the text analyzer fails on a text MIME
type, `ComputeMetadata` still succeeds with the MIME-only bundle and
the same digest/size; an unknown category also yields the MIME-only
bundle without being an error. -/
theorem computeMetadata_enrichment_best_effort
    (sha256hex : List Nat → String) (detectContentType : List Nat → String)
    (decodeConfig : List Nat → Except String (Nat × Nat))
    (fs fsReopen : String → Option (List Nat)) (path : String) (content : List Nat)
    (m : String)
    (hopen : fs path = some content)
    (hm : detectContentType (content.take 512) = m) :
    (goHasPrefix m "image/" = true →
      ∀ e, analyzeImage decodeConfig fsReopen path = .error e →
        computeMetadata sha256hex detectContentType decodeConfig fs fsReopen path =
          .ok { hash := sha256hex content, size := content.length
                extension := goExt path, extra := [("mime_type", .str m)] })
    ∧ (goHasPrefix m "image/" = false → goHasPrefix m "text/" = true →
      ∀ e, analyzeText fsReopen path = .error e →
        computeMetadata sha256hex detectContentType decodeConfig fs fsReopen path =
          .ok { hash := sha256hex content, size := content.length
                extension := goExt path, extra := [("mime_type", .str m)] })
    ∧ (goHasPrefix m "image/" = false → goHasPrefix m "text/" = false →
        computeMetadata sha256hex detectContentType decodeConfig fs fsReopen path =
          .ok { hash := sha256hex content, size := content.length
                extension := goExt path, extra := [("mime_type", .str m)] }) := by
  refine ⟨?_, ?_, ?_⟩
  · intro himg e he
    unfold computeMetadata
    rw [hopen]
    simp [goReadN, goSeekStart, goCopyAll, hm, himg, he]
  · intro himg htxt e he
    unfold computeMetadata
    rw [hopen]
    simp [goReadN, goSeekStart, goCopyAll, hm, himg, htxt, he]
  · intro himg htxt
    unfold computeMetadata
    rw [hopen]
    simp [goReadN, goSeekStart, goCopyAll, hm, himg, htxt]

/-- Witness for `computeMetadata_enrichment_best_effort`: an image MIME
type whose header decode fails degrades to the MIME-only bundle. -/
theorem computeMetadata_enrichment_best_effort_witness :
    computeMetadata (fun _ => "digest") (fun _ => "image/png")
        (fun _ => .error "bad header") (fun _ => some [137, 80]) (fun _ => some [137, 80])
        "/tmp/f.png" =
      .ok { hash := "digest", size := 2, extension := ".png"
            extra := [("mime_type", .str "image/png")] } :=
  (computeMetadata_enrichment_best_effort (fun _ => "digest") (fun _ => "image/png")
      (fun _ => .error "bad header") (fun _ => some [137, 80]) (fun _ => some [137, 80])
      "/tmp/f.png" [137, 80] "image/png" rfl rfl).1
    (by decide) (.decodeErr "bad header")
    (by simp [analyzeImage])

/-! ## Line and word counting: spec-side definitions and lemmas

`specLineCount` and `specWordCount` state, in the spec's own terms,
"the number of lines in the content" (newline-separated segments, a
trailing newline not opening a new line) and "the number of
whitespace-delimited tokens" (non-empty blocks after splitting the
whole content at whitespace).  The lemmas connect them to the
scanner/fields loop of the source. -/

def specLineCount (content : List Nat) : Nat :=
  content.count 10 + (if content ≠ [] ∧ content.getLast? ≠ some 10 then 1 else 0)

def specWordCount (content : List Nat) : Nat :=
  ((content.splitOnP asciiSpace).filter (· ≠ [])).length

/-- The `wasSpace` state after consuming `l`, starting from `ws`. -/
def endWasSpace : List Nat → Bool → Bool
  | [], ws => ws
  | b :: r, _ => endWasSpace r (asciiSpace b)

theorem fieldsGo_append (l₁ l₂ : List Nat) (ws : Bool) :
    fieldsGo (l₁ ++ l₂) ws = fieldsGo l₁ ws + fieldsGo l₂ (endWasSpace l₁ ws) := by
  induction l₁ generalizing ws with
  | nil => simp [fieldsGo, endWasSpace]
  | cons b r ih =>
    simp only [List.cons_append, fieldsGo, endWasSpace]
    have h' := ih (asciiSpace b)
    simp only [List.append_eq] at h' ⊢
    omega

theorem fieldsGo_newline (l : List Nat) (ws : Bool) :
    fieldsGo (10 :: l) ws = fieldsGo l true := by
  simp [fieldsGo, asciiSpace]

theorem fieldsGo_dropCR (l : List Nat) :
    fieldsGo (dropCR l) true = fieldsGo l true := by
  unfold dropCR
  by_cases h : l.getLast? = some 13
  · rw [if_pos h]
    have hne : l ≠ [] := by rintro rfl; simp at h
    have hsplit : l.dropLast ++ [l.getLast hne] = l := List.dropLast_append_getLast hne
    have hlast : l.getLast hne = 13 := by
      have hq := List.getLast?_eq_getLast l hne
      rw [hq] at h
      exact Option.some.inj h
    conv_rhs => rw [← hsplit]
    rw [hlast, fieldsGo_append]
    simp [fieldsGo, asciiSpace]
  · rw [if_neg h]

/-- The newline-separated segments of the content (including empty
ones and the final segment), i.e. the chunks the scanner works through
in order; spec-side counterpart of the `splitFirstLine` recursion. -/
def specLines (content : List Nat) : List (List Nat) :=
  content.splitOnP (fun b => b == 10)

theorem specLines_of_none :
    ∀ {l t : List Nat}, splitFirstLine l = (t, none) → specLines l = [t] := by
  intro l
  induction l with
  | nil =>
    intro t h
    simp only [splitFirstLine, Prod.mk.injEq] at h
    rw [← h.1]
    simp [specLines, List.splitOnP_nil]
  | cons b rest ih =>
    intro t h
    by_cases hb : b = 10
    · simp [splitFirstLine, hb] at h
    · rcases hq : splitFirstLine rest with ⟨t', o⟩
      simp only [splitFirstLine, hb, if_false, hq] at h
      cases o with
      | some r => simp at h
      | none =>
        simp only [Prod.mk.injEq] at h
        have hr := ih hq
        unfold specLines at hr ⊢
        rw [List.splitOnP_cons, if_neg (by simp [hb]), hr]
        simp [List.modifyHead, h.1]
  
theorem specLines_of_some :
    ∀ {l t r : List Nat}, splitFirstLine l = (t, some r) →
      specLines l = t :: specLines r := by
  intro l
  induction l with
  | nil => intro t r h; simp [splitFirstLine] at h
  | cons b rest ih =>
    intro t r h
    by_cases hb : b = 10
    · simp only [splitFirstLine, hb, if_true, Prod.mk.injEq, Option.some.injEq] at h
      unfold specLines
      rw [List.splitOnP_cons, if_pos (by simp [hb]), ← h.1, ← h.2]
    · rcases hq : splitFirstLine rest with ⟨t', o⟩
      simp only [splitFirstLine, hb, if_false, hq] at h
      cases o with
      | none => simp at h
      | some r' =>
        simp only [Prod.mk.injEq, Option.some.injEq] at h
        have hr := ih hq
        unfold specLines at hr ⊢
        rw [List.splitOnP_cons, if_neg (by simp [hb]), hr]
        rw [h.2] at hr ⊢
        simp [List.modifyHead, h.1]

theorem scanLines_eq_of_none {l t : List Nat} (hne : l ≠ [])
    (hsp : splitFirstLine l = (t, none))
    (hfit : t.length < maxScanTokenSize) :
    scanLines l = [dropCR t] := by
  rw [scanLines, dif_neg hne]
  split
  next t' heq =>
    rw [hsp] at heq
    cases heq
    rw [if_pos hfit]
  next t' r heq =>
    rw [hsp] at heq
    cases heq

theorem scanLines_eq_nil_of_none_toolong {l t : List Nat} (hne : l ≠ [])
    (hsp : splitFirstLine l = (t, none))
    (hfit : ¬ t.length < maxScanTokenSize) :
    scanLines l = [] := by
  rw [scanLines, dif_neg hne]
  split
  next t' heq =>
    rw [hsp] at heq
    cases heq
    rw [if_neg hfit]
  next t' r heq =>
    rw [hsp] at heq
    cases heq

theorem scanLines_eq_of_some {l t r : List Nat} (hne : l ≠ [])
    (hsp : splitFirstLine l = (t, some r))
    (hfit : t.length < maxScanTokenSize) :
    scanLines l = dropCR t :: scanLines r := by
  rw [scanLines, dif_neg hne]
  split
  next t' heq =>
    rw [hsp] at heq
    cases heq
  next t' r' heq =>
    rw [hsp] at heq
    cases heq
    rw [if_pos hfit]

theorem scanLines_words_sum (l : List Nat)
    (hfit : ∀ seg ∈ specLines l, seg.length < maxScanTokenSize) :
    ((scanLines l).map fieldsLen).sum = fieldsGo l true := by
  suffices H : ∀ n (l : List Nat), l.length = n →
      (∀ seg ∈ specLines l, seg.length < maxScanTokenSize) →
      ((scanLines l).map fieldsLen).sum = fieldsGo l true from H l.length l rfl hfit
  intro n
  induction n using Nat.strong_induction_on with
  | _ n ih =>
    intro l hn hfit
    by_cases hne : l = []
    · subst hne; simp [scanLines, fieldsGo]
    · rcases hsp : splitFirstLine l with ⟨t, o⟩
      cases o with
      | none =>
        have ht := splitFirstLine_none hsp
        have htf : t.length < maxScanTokenSize := by
          refine hfit t ?_
          rw [specLines_of_none hsp]
          exact List.mem_cons_self t []
        rw [scanLines_eq_of_none hne hsp htf]
        simp only [List.map_cons, List.map_nil, List.sum_cons, List.sum_nil, fieldsLen]
        rw [fieldsGo_dropCR, ← ht]
        omega
      | some r =>
        obtain ⟨heq, hlt⟩ := splitFirstLine_some hsp
        have hsl := specLines_of_some hsp
        have htf : t.length < maxScanTokenSize := by
          refine hfit t ?_
          rw [hsl]
          exact List.mem_cons_self t _
        have hrf : ∀ seg ∈ specLines r, seg.length < maxScanTokenSize := by
          intro seg hm
          refine hfit seg ?_
          rw [hsl]
          exact List.mem_cons_of_mem _ hm
        rw [scanLines_eq_of_some hne hsp htf]
        simp only [List.map_cons, List.sum_cons, fieldsLen]
        rw [fieldsGo_dropCR]
        rw [ih r.length (by omega) r rfl hrf]
        rw [heq, fieldsGo_append, fieldsGo_newline]

theorem splitFirstLine_fst_no_newline (l : List Nat) : 10 ∉ (splitFirstLine l).1 := by
  induction l with
  | nil => simp [splitFirstLine]
  | cons b rest ih =>
    by_cases hb : b = 10
    · simp [splitFirstLine, hb]
    · simp only [splitFirstLine, hb, if_false, List.mem_cons]
      rintro (h | h)
      · exact hb h.symm
      · exact ih h

theorem scanLines_length (l : List Nat)
    (hfit : ∀ seg ∈ specLines l, seg.length < maxScanTokenSize) :
    (scanLines l).length = specLineCount l := by
  suffices H : ∀ n (l : List Nat), l.length = n →
      (∀ seg ∈ specLines l, seg.length < maxScanTokenSize) →
      (scanLines l).length = specLineCount l from H l.length l rfl hfit
  intro n
  induction n using Nat.strong_induction_on with
  | _ n ih =>
    intro l hn hfit
    by_cases hne : l = []
    · subst hne; simp [scanLines, specLineCount]
    · rcases hsp : splitFirstLine l with ⟨t, o⟩
      have hno : 10 ∉ t := by
        have hfst := splitFirstLine_fst_no_newline l
        rw [hsp] at hfst
        exact hfst
      cases o with
      | none =>
        have ht := splitFirstLine_none hsp
        have htf : t.length < maxScanTokenSize := by
          refine hfit t ?_
          rw [specLines_of_none hsp]
          exact List.mem_cons_self t []
        rw [scanLines_eq_of_none hne hsp htf]
        have hcount : l.count 10 = 0 := by
          rw [ht]; exact List.count_eq_zero.mpr hno
        have hlast : l.getLast? ≠ some 10 := by
          intro hc
          have hx : (10 : Nat) ∈ l.getLast? := by rw [Option.mem_def]; exact hc
          obtain ⟨hl', hx'⟩ := List.mem_getLast?_eq_getLast hx
          have hmem : (10 : Nat) ∈ l := by rw [hx']; exact List.getLast_mem hl'
          rw [ht] at hmem
          exact hno hmem
        simp [specLineCount, hcount, hne, hlast]
      | some r =>
        obtain ⟨heq, hlt⟩ := splitFirstLine_some hsp
        have hsl := specLines_of_some hsp
        have htf : t.length < maxScanTokenSize := by
          refine hfit t ?_
          rw [hsl]
          exact List.mem_cons_self t _
        have hrf : ∀ seg ∈ specLines r, seg.length < maxScanTokenSize := by
          intro seg hm
          refine hfit seg ?_
          rw [hsl]
          exact List.mem_cons_of_mem _ hm
        rw [scanLines_eq_of_some hne hsp htf]
        simp only [List.length_cons]
        rw [ih r.length (by omega) r rfl hrf]
        have hct : t.count 10 = 0 := List.count_eq_zero.mpr hno
        have hcount : l.count 10 = r.count 10 + 1 := by
          rw [heq, List.count_append, hct, List.count_cons]
          simp
        cases hr : r with
        | nil =>
          have hlast : l.getLast? = some 10 := by
            rw [heq, hr]
            exact List.getLast?_concat t
          simp [specLineCount, hcount, hlast, hr]
        | cons c r' =>
          have hlast : l.getLast? = r.getLast? := by
            rw [heq, List.getLast?_append_cons, hr, List.getLast?_cons_cons]
          rw [← hr]
          have hrne : r ≠ [] := by simp [hr]
          simp only [specLineCount, hcount, hlast, hne, hrne, ne_eq,
            not_false_iff, true_and]
          omega

/-- Whether the content starts with a non-whitespace byte (so that a
`wasSpace = false` start would glue the first token to a previous one). -/
def headNonspace (l : List Nat) : Bool :=
  match l.head? with
  | some b => ! asciiSpace b
  | none => false

theorem fieldsGo_true_eq_false_add (l : List Nat) :
    fieldsGo l true = fieldsGo l false + (if headNonspace l then 1 else 0) := by
  cases l with
  | nil => simp [fieldsGo, headNonspace]
  | cons b r =>
    by_cases hb : asciiSpace b = true
    · simp [fieldsGo, hb, headNonspace]
    · simp only [Bool.not_eq_true] at hb
      simp [fieldsGo, hb, headNonspace]
      omega

theorem splitOnP_head_nonempty_iff (l : List Nat) (h : List Nat) (tl : List (List Nat))
    (hs : l.splitOnP asciiSpace = h :: tl) :
    (h ≠ [] ↔ headNonspace l = true) := by
  cases l with
  | nil =>
    rw [List.splitOnP_nil] at hs
    cases hs
    simp [headNonspace]
  | cons b r =>
    rw [List.splitOnP_cons] at hs
    by_cases hb : asciiSpace b = true
    · rw [if_pos hb] at hs
      cases hs
      simp [headNonspace, hb]
    · rw [if_neg hb] at hs
      rcases hq : r.splitOnP asciiSpace with _ | ⟨h', tl'⟩
      · exact absurd hq (List.splitOnP_ne_nil _ _)
      · rw [hq] at hs
        simp only [List.modifyHead] at hs
        cases hs
        simp [headNonspace, hb]

theorem fieldsGo_eq_specWordCount (l : List Nat) :
    fieldsGo l true = specWordCount l := by
  induction l with
  | nil => simp [fieldsGo, specWordCount, List.splitOnP_nil]
  | cons b r ih =>
    unfold specWordCount
    rw [List.splitOnP_cons]
    by_cases hb : asciiSpace b = true
    · rw [if_pos hb]
      have hstep : fieldsGo (b :: r) true = fieldsGo r true := by simp [fieldsGo, hb]
      rw [hstep, ih]
      simp [specWordCount]
    · rw [if_neg hb]
      rcases hq : r.splitOnP asciiSpace with _ | ⟨h, tl⟩
      · exact absurd hq (List.splitOnP_ne_nil _ _)
      · simp only [hq, List.modifyHead]
        have hbf : asciiSpace b = false := by simpa using hb
        have h1 : fieldsGo (b :: r) true = 1 + fieldsGo r false := by
          simp [fieldsGo, hbf]
        have h2 : fieldsGo r true = fieldsGo r false + (if headNonspace r then 1 else 0) :=
          fieldsGo_true_eq_false_add r
        have h3 : specWordCount r =
            (if h ≠ [] then 1 else 0) + (tl.filter (· ≠ [])).length := by
          unfold specWordCount
          rw [hq]
          by_cases hh : h = []
          · simp [hh, List.filter]
          · simp [hh, List.filter, Nat.add_comm]
        have h4 : (h ≠ [] ↔ headNonspace r = true) :=
          splitOnP_head_nonempty_iff r h tl hq
        have h5 : (if h ≠ [] then 1 else 0) = (if headNonspace r then 1 else 0) := by
          by_cases hh : h = []
          · simp [hh, (by simpa [hh] using h4 : ¬ headNonspace r = true)]
          · simp [hh, h4.mp hh]
        have hlen : ((List.cons (b :: h) tl).filter (· ≠ [])).length =
            1 + (tl.filter (· ≠ [])).length := by
          simp [List.filter]
          omega
        rw [hlen]
        have hrf : fieldsGo r false = (tl.filter (· ≠ [])).length := by
          rw [h3, h5] at ih
          omega
        omega

/-- **C8 (amended).** For a plain-text content source (ASCII bytes;
non-ASCII contents take `bytes.Fields`\' rune-decoding path, which is
outside this model) in which every newline-separated line is shorter
than `bufio.MaxScanTokenSize` (65536 bytes), the analyzer\'s metadata
bundle carries the MIME classification key plus `lines` equal to the
number of lines of the content and `words` equal to the number of
whitespace-delimited tokens of the content.  (A line of 65536 bytes or
more stops the scanner with an unchecked `ErrTooLong`, truncating the
counts — see the counterexample.) -/
theorem analyzeText_line_word_counts
    (sha256hex : List Nat → String) (detectContentType : List Nat → String)
    (decodeConfig : List Nat → Except String (Nat × Nat))
    (fs : String → Option (List Nat)) (path : String) (content : List Nat) (m : String)
    (hopen : fs path = some content)
    (_hascii : ∀ b ∈ content, b < 128)
    (hfit : ∀ seg ∈ specLines content, seg.length < maxScanTokenSize)
    (hm : detectContentType (content.take 512) = m)
    (himg : goHasPrefix m "image/" = false)
    (htxt : goHasPrefix m "text/" = true) :
    computeMetadata sha256hex detectContentType decodeConfig fs fs path =
      .ok { hash := sha256hex content, size := content.length, extension := goExt path
            extra := [("mime_type", .str m), ("lines", .int (specLineCount content)),
                      ("words", .int (specWordCount content))] } := by
  have htext : analyzeText fs path =
      .ok [("lines", .int (specLineCount content)),
           ("words", .int (specWordCount content))] := by
    unfold analyzeText
    rw [hopen]
    simp only [scanLines_length content hfit, scanLines_words_sum content hfit,
      fieldsGo_eq_specWordCount]
  unfold computeMetadata
  rw [hopen]
  simp [goReadN, goSeekStart, goCopyAll, hm, himg, htxt, htext]

/-- The spec\'s test fixture: `"one two three\nfour five six seven\neight
nine ten"` — 3 lines, 10 whitespace-delimited words. -/
def textFixture : List Nat :=
  [111, 110, 101, 32, 116, 119, 111, 32, 116, 104, 114, 101, 101, 10,
   102, 111, 117, 114, 32, 102, 105, 118, 101, 32, 115, 105, 120, 32,
   115, 101, 118, 101, 110, 10,
   101, 105, 103, 104, 116, 32, 110, 105, 110, 101, 32, 116, 101, 110]

/-- Witness for `analyzeText_line_word_counts`: the 3-line/10-word
fixture (every line far below 64 KiB) yields `{lines: 3, words: 10}`
plus the MIME key. -/
theorem analyzeText_line_word_counts_witness :
    computeMetadata (fun _ => "digest") (fun _ => "text/plain; charset=utf-8")
        (fun _ => .error "no") (fun _ => some textFixture) (fun _ => some textFixture)
        "/tmp/fixture.txt" =
      .ok { hash := "digest", size := 48, extension := ".txt"
            extra := [("mime_type", .str "text/plain; charset=utf-8"),
                      ("lines", .int 3), ("words", .int 10)] } := by
  have h := analyzeText_line_word_counts (fun _ => "digest")
    (fun _ => "text/plain; charset=utf-8") (fun _ => .error "no")
    (fun _ => some textFixture) "/tmp/fixture.txt" textFixture
    "text/plain; charset=utf-8" rfl (by decide) (by decide) rfl (by decide) (by decide)
  rw [h]
  congr 1

/-- A single line of 65537 non-whitespace bytes: one byte over
`bufio.MaxScanTokenSize`, so the very first `Scan` fails with
`ErrTooLong`. -/
def longLine : List Nat := List.replicate 65537 97

theorem splitFirstLine_replicate (n b : Nat) (hb : b ≠ 10) :
    splitFirstLine (List.replicate n b) = (List.replicate n b, none) := by
  induction n with
  | zero => rfl
  | succ m ih =>
    rw [List.replicate_succ]
    simp only [splitFirstLine, hb, if_false, ih]

/-- **C8 (counterexample).** The original claim fails on the code: a
plain-text source consisting of one 65537-byte line has 1 line and 1
whitespace-delimited word, but the program\'s scanner hits the 64 KiB
token limit on the first `Scan`, the error is never checked, and the
returned metadata says `{lines: 0, words: 0}`. -/
theorem analyzeText_line_word_counts_counterexample :
    specLineCount longLine = 1 ∧ specWordCount longLine = 1
    ∧ computeMetadata (fun _ => "digest") (fun _ => "text/plain; charset=utf-8")
        (fun _ => .error "no") (fun _ => some longLine) (fun _ => some longLine)
        "/tmp/big.txt" =
      .ok { hash := "digest", size := 65537, extension := ".txt"
            extra := [("mime_type", .str "text/plain; charset=utf-8"),
                      ("lines", .int 0), ("words", .int 0)] } := by
  have hlen : longLine.length = 65537 := by
    rw [show longLine = List.replicate 65537 97 from rfl, List.length_replicate]
  have hne : longLine ≠ [] := by
    intro hc
    rw [hc] at hlen
    simp at hlen
  have hsp : splitFirstLine longLine = (longLine, none) :=
    splitFirstLine_replicate 65537 97 (by decide)
  have hscan : scanLines longLine = [] :=
    scanLines_eq_nil_of_none_toolong hne hsp (by rw [hlen]; decide)
  refine ⟨?_, ?_, ?_⟩
  · have hcount : longLine.count 10 = 0 := by
      refine List.count_eq_zero.mpr ?_
      intro hmem
      have h97 := List.eq_of_mem_replicate hmem
      simp at h97
    have hlast : longLine.getLast? = some 97 := by
      have hrepl : longLine = List.replicate 65536 97 ++ [97] := by
        rw [← List.replicate_succ']
        exact rfl
      rw [hrepl]
      exact List.getLast?_concat _
    simp [specLineCount, hcount, hne, hlast]
  · have hsplit : longLine.splitOnP asciiSpace = [longLine] := by
      refine List.splitOnP_eq_single _ _ ?_
      intro x hx
      have h97 := List.eq_of_mem_replicate hx
      subst h97
      decide
    simp [specWordCount, hsplit, hne]
  · have htext : analyzeText (fun _ => some longLine) "/tmp/big.txt" =
        .ok [("lines", .int 0), ("words", .int 0)] := by
      unfold analyzeText
      simp [hscan]
    have himg : goHasPrefix "text/plain; charset=utf-8" "image/" = false := by decide
    have htxt : goHasPrefix "text/plain; charset=utf-8" "text/" = true := by decide
    have hext : goExt "/tmp/big.txt" = ".txt" := by decide
    unfold computeMetadata
    simp [goReadN, goSeekStart, goCopyAll, himg, htxt, htext, hlen, hext]

/-! ## Claim theorems: pool construction -/

/-- The pool constructor the spec describes: worker count, job-queue
capacity and result-queue capacity as three independent parameters.
Modelled from the spec's words, for comparison with the source's
`NewPool`. -/
def specNewPool (workers jobQueueCap resultQueueCap : Nat) : PoolState :=
  { jobsBuf := [], jobsCap := jobQueueCap, jobsClosed := false
    resultsBuf := [], resultsCap := resultQueueCap, resultsClosed := false
    poolCtxCancelled := false
    workers := List.replicate workers .idle
    accepted := [], pushed := [], consumed := [], submitCrashed := false }

/-- **C5 (counterexample).** The configuration "2 workers, job-queue
capacity 1" is expressible with the spec's three-parameter constructor
but by no call of the source's `NewPool`, whose only parameter is the
worker count: both capacities are forced to `workers*2`. -/
theorem newPool_capacity_not_independent :
    (specNewPool 2 1 4).workers.length = 2 ∧ (specNewPool 2 1 4).jobsCap = 1
    ∧ ¬ ∃ w : Nat, (NewPool w).workers.length = 2 ∧ (NewPool w).jobsCap = 1 := by
  refine ⟨by simp [specNewPool], rfl, ?_⟩
  rintro ⟨w, h1, h2⟩
  simp [NewPool] at h1 h2

/-- **C5 (amended).** The pool is constructed from a single worker-count
parameter (plus a logger, which carries no pool state); the job-queue
and result-queue capacities are not independently configurable — both
are fixed at twice the worker count. -/
theorem newPool_single_parameter (w : Nat) :
    (NewPool w).workers.length = w ∧ (NewPool w).jobsCap = w * 2
    ∧ (NewPool w).resultsCap = w * 2 := by
  simp [NewPool]

/-! ## Claim theorems: the results consumer -/

theorem handleResults_append (repo : Repo) (l₁ l₂ : List Result) :
    handleResults repo (l₁ ++ l₂) = handleResults repo l₁ ++ handleResults repo l₂ := by
  induction l₁ with
  | nil => simp [handleResults]
  | cons r rest ih => simp [handleResults, ih]

/-- **C7.** A failure result leads to exactly one status update — to
"failed", with no retry and no metadata write — and the calls made for
the results before and after it are unaffected, whatever outcomes the
repository returns (including failures of the update for this result):
per-result isolation. -/
theorem handleResults_failure_isolated
    (repo : Repo) (rs₁ rs₂ : List Result) (res : Result) (e : GoError)
    (herr : res.err = some e) :
    handleResult repo res = [.updateStatus res.fileID "failed"]
    ∧ handleResults repo (rs₁ ++ res :: rs₂) =
        handleResults repo rs₁ ++ [.updateStatus res.fileID "failed"]
          ++ handleResults repo rs₂ := by
  have h1 : handleResult repo res = [.updateStatus res.fileID "failed"] := by
    simp [handleResult, herr]
  refine ⟨h1, ?_⟩
  have : (res :: rs₂ : List Result) = [res] ++ rs₂ := rfl
  rw [this, ← List.append_assoc, handleResults_append, handleResults_append]
  simp [handleResults, h1]

/-- Witness for `handleResults_failure_isolated`: a repository whose
every update call fails, a failure result between two successes. -/
theorem handleResults_failure_isolated_witness :
    handleResult
        { statusOutcome := fun _ _ => .error "db down"
          metadataOutcome := fun _ _ _ _ => .error "db down" }
        { fileID := "f2", hash := "", size := 0, extension := ""
          metadata := none, err := some (.openErr "/gone") } =
      [.updateStatus "f2" "failed"] :=
  (handleResults_failure_isolated
    { statusOutcome := fun _ _ => .error "db down"
      metadataOutcome := fun _ _ _ _ => .error "db down" }
    [{ fileID := "f1", hash := "a", size := 1, extension := ".txt"
       metadata := some [], err := none }]
    [{ fileID := "f3", hash := "b", size := 2, extension := ".txt"
       metadata := some [], err := none }]
    { fileID := "f2", hash := "", size := 0, extension := ""
      metadata := none, err := some (.openErr "/gone") }
    (.openErr "/gone") rfl).1

/-! ## Pool invariants

Helper lemmas about `busyJobs` and list surgery, the inductive
invariant of the pool transition system, and its preservation proof. -/

theorem getElem?_some_mem {α : Type} {l : List α} {i : Nat} {a : α}
    (h : l[i]? = some a) : a ∈ l := by
  obtain ⟨hlt, he⟩ := List.getElem?_eq_some.mp h
  exact he ▸ List.getElem_mem hlt

theorem getElem?_set_same {α : Type} {l : List α} {i : Nat} {a : α} (b : α)
    (h : l[i]? = some a) : (l.set i b)[i]? = some b := by
  have hlt : i < l.length := by
    by_contra hc
    push_neg at hc
    rw [List.getElem?_eq_none hc] at h
    cases h
  simp [List.getElem?_set_self', hlt]

theorem busyJobs_cons_idle (ws : List WorkerPhase) :
    busyJobs (.idle :: ws) = busyJobs ws := rfl

theorem busyJobs_cons_done (ws : List WorkerPhase) :
    busyJobs (.done :: ws) = busyJobs ws := rfl

theorem busyJobs_cons_busy (j : Job) (ws : List WorkerPhase) :
    busyJobs (.busy j :: ws) = j :: busyJobs ws := rfl

theorem busyJobs_replicate_idle (w : Nat) :
    busyJobs (List.replicate w .idle) = [] := by
  induction w with
  | zero => rfl
  | succ n ih => simpa [List.replicate_succ, busyJobs_cons_idle] using ih

theorem busyJobs_set_busy (ws : List WorkerPhase) (i : Nat) (j : Job)
    (h : ws[i]? = some .idle) :
    (busyJobs (ws.set i (.busy j))).Perm (j :: busyJobs ws) := by
  induction ws generalizing i with
  | nil => simp at h
  | cons ph tl ih =>
    cases i with
    | zero =>
      simp only [List.getElem?_cons_zero, Option.some.injEq] at h
      subst h
      simp [busyJobs_cons_busy, busyJobs_cons_idle]
    | succ n =>
      simp only [List.getElem?_cons_succ] at h
      have ihn := ih n h
      cases ph with
      | idle => simpa [busyJobs_cons_idle] using ihn
      | done => simpa [busyJobs_cons_done] using ihn
      | busy k =>
        simp only [List.set_cons_succ, busyJobs_cons_busy]
        exact (ihn.cons k).trans (List.Perm.swap j k _)

theorem busyJobs_set_idle (ws : List WorkerPhase) (i : Nat) (j : Job)
    (h : ws[i]? = some (.busy j)) :
    (busyJobs ws).Perm (j :: busyJobs (ws.set i .idle)) := by
  induction ws generalizing i with
  | nil => simp at h
  | cons ph tl ih =>
    cases i with
    | zero =>
      simp only [List.getElem?_cons_zero, Option.some.injEq] at h
      subst h
      simp [busyJobs_cons_busy, busyJobs_cons_idle]
    | succ n =>
      simp only [List.getElem?_cons_succ] at h
      have ihn := ih n h
      cases ph with
      | idle => simpa [busyJobs_cons_idle] using ihn
      | done => simpa [busyJobs_cons_done] using ihn
      | busy k =>
        simp only [List.set_cons_succ, busyJobs_cons_busy]
        exact (ihn.cons k).trans (List.Perm.swap j k _)

theorem busyJobs_set_done (ws : List WorkerPhase) (i : Nat)
    (h : ws[i]? = some .idle) :
    busyJobs (ws.set i .done) = busyJobs ws := by
  induction ws generalizing i with
  | nil => simp at h
  | cons ph tl ih =>
    cases i with
    | zero =>
      simp only [List.getElem?_cons_zero, Option.some.injEq] at h
      subst h
      simp [busyJobs_cons_done, busyJobs_cons_idle]
    | succ n =>
      simp only [List.getElem?_cons_succ] at h
      have ihn := ih n h
      cases ph with
      | idle => simpa [busyJobs_cons_idle] using ihn
      | done => simpa [busyJobs_cons_done] using ihn
      | busy k => simp [List.set_cons_succ, busyJobs_cons_busy, ihn]

theorem busyJobs_eq_nil_of_all_done {ws : List WorkerPhase}
    (h : ∀ ph ∈ ws, ph = WorkerPhase.done) : busyJobs ws = [] := by
  induction ws with
  | nil => rfl
  | cons ph tl ih =>
    have hd := h ph (List.mem_cons_self ph tl)
    subst hd
    exact (busyJobs_cons_done tl).trans (ih fun q hq => h q (List.mem_cons_of_mem _ hq))

theorem perm_snoc_out {α : Type} (p q r : List α) (x : α) :
    ((p ++ q ++ r) ++ [x]).Perm (x :: (p ++ q ++ r)) := by
  simpa using @List.perm_middle α x (p ++ q ++ r) []

theorem perm_mid_out {α : Type} (p q r : List α) (x : α) :
    (p ++ (x :: q) ++ r).Perm (x :: (p ++ q ++ r)) := by
  simpa [List.append_assoc] using (@List.perm_middle α x p q).append_right r

theorem perm_right_out {α : Type} (p q r : List α) (x : α) :
    (p ++ q ++ (x :: r)).Perm (x :: (p ++ q ++ r)) := by
  simpa [List.append_assoc] using @List.perm_middle α x (p ++ q) r

theorem perm_midsnoc_out {α : Type} (p q r : List α) (x : α) :
    (p ++ (q ++ [x]) ++ r).Perm (x :: (p ++ q ++ r)) := by
  have he : p ++ (q ++ [x]) ++ r = p ++ q ++ (x :: r) := by simp [List.append_assoc]
  rw [he]
  exact perm_right_out p q r x

theorem perm_push_out {α : Type} (p q r : List α) (x : α) :
    ((p ++ [x]) ++ q ++ r).Perm (x :: (p ++ q ++ r)) := by
  have he : (p ++ [x]) ++ q ++ r = p ++ (x :: q) ++ r := by simp [List.append_assoc]
  rw [he]
  exact perm_mid_out p q r x

/-- The inductive invariant of the pool transition system:

* the pool context is never cancelled (`p.cancel()` has no caller in
  the repository);
* the number of worker goroutines is fixed;
* the jobs-channel capacity is the one `NewPool` chose;
* results ever pushed = results consumed, then the channel buffer
  (channel FIFO discipline);
* results pushed plus results still owed for buffered and in-flight
  jobs account for exactly the accepted jobs;
* a worker can only have exited after `close(p.jobs)`;
* if every worker has exited, the jobs buffer has been drained;
* once the results channel is closed: all workers exited, the jobs
  channel is closed and drained. -/
structure PoolInv (analyzer : String → Except GoError Metadata) (w : Nat)
    (s : PoolState) : Prop where
  ctxFalse : s.poolCtxCancelled = false
  wlen : s.workers.length = w
  capJ : s.jobsCap = w * 2
  fifo : s.pushed = s.consumed ++ s.resultsBuf
  perm : (s.accepted.map (process analyzer)).Perm
    (s.pushed ++ s.jobsBuf.map (process analyzer)
      ++ (busyJobs s.workers).map (process analyzer))
  doneClosed : WorkerPhase.done ∈ s.workers → s.jobsClosed = true
  allDoneEmpty : (∀ ph ∈ s.workers, ph = WorkerPhase.done) → s.jobsBuf = []
  closedFacts : s.resultsClosed = true →
    (∀ ph ∈ s.workers, ph = WorkerPhase.done) ∧ s.jobsClosed = true ∧ s.jobsBuf = []

theorem reachable_inv (analyzer : String → Except GoError Metadata) (w : Nat)
    (s : PoolState) (hr : Reachable analyzer w s) : PoolInv analyzer w s := by
  induction hr with
  | init =>
    refine ⟨rfl, by simp [NewPool], rfl, rfl, ?_, ?_, ?_, ?_⟩
    · simp [NewPool, busyJobs_replicate_idle]
    · intro h
      have := List.eq_of_mem_replicate (show _ ∈ List.replicate w WorkerPhase.idle from h)
      simp at this
    · intro _; rfl
    · intro h
      simp [NewPool] at h
  | @step s e s2 hr hstep ih =>
    cases hstep with
    | submitTrue j hopen hcap =>
      refine ⟨ih.ctxFalse, ih.wlen, ih.capJ, ih.fifo, ?_, ih.doneClosed, ?_, ?_⟩
      · simp only [List.map_append, List.map_cons, List.map_nil]
        exact ((ih.perm.append_right [process analyzer j]).trans
          (perm_snoc_out _ _ _ _)).trans (perm_midsnoc_out _ _ _ _).symm
      · intro hall
        exfalso
        cases hw : s.workers with
        | nil =>
          have hlen := ih.wlen
          rw [hw] at hlen
          simp at hlen
          have hc0 := ih.capJ
          omega
        | cons ph tl =>
          have hmem : ph ∈ s.workers := by rw [hw]; exact List.mem_cons_self ph tl
          have hd := hall ph hmem
          subst hd
          have hcl := ih.doneClosed hmem
          rw [hopen] at hcl
          simp at hcl
      · intro h
        obtain ⟨_, hc, _⟩ := ih.closedFacts h
        rw [hopen] at hc
        simp at hc
    | submitFalse j hcancel => exact ih
    | submitOnClosed j hclosed =>
      exact ⟨ih.ctxFalse, ih.wlen, ih.capJ, ih.fifo, ih.perm, ih.doneClosed,
        ih.allDoneEmpty, ih.closedFacts⟩
    | shutdownCloseJobs hopen =>
      refine ⟨ih.ctxFalse, ih.wlen, ih.capJ, ih.fifo, ih.perm, ?_, ih.allDoneEmpty, ?_⟩
      · intro _; rfl
      · intro h
        obtain ⟨hd, _, he⟩ := ih.closedFacts h
        exact ⟨hd, rfl, he⟩
    | workerTake i j rest hidle hbuf =>
      refine ⟨ih.ctxFalse, ?_, ih.capJ, ih.fifo, ?_, ?_, ?_, ?_⟩
      · simpa [List.length_set] using ih.wlen
      · have base := ih.perm
        rw [hbuf] at base
        simp only [List.map_cons] at base
        refine base.trans ?_
        refine (perm_mid_out _ _ _ _).trans ?_
        have hb := (busyJobs_set_busy s.workers i j hidle).map (process analyzer)
        simp only [List.map_cons] at hb
        exact ((hb.append_left (s.pushed ++ rest.map (process analyzer))).trans
          (perm_right_out _ _ _ _)).symm
      · intro h
        rcases List.mem_or_eq_of_mem_set h with hm | he
        · exact ih.doneClosed hm
        · simp at he
      · intro hall
        exfalso
        have hset := getElem?_set_same (WorkerPhase.busy j) hidle
        have hmem := getElem?_some_mem hset
        have := hall _ hmem
        simp at this
      · intro h
        obtain ⟨hd, _, _⟩ := ih.closedFacts h
        have hmem := getElem?_some_mem hidle
        have := hd _ hmem
        simp at this
    | workerFinish i j hbusy hcap =>
      refine ⟨ih.ctxFalse, ?_, ih.capJ, ?_, ?_, ?_, ?_, ?_⟩
      · simpa [List.length_set] using ih.wlen
      · rw [ih.fifo, List.append_assoc]
      · refine ih.perm.trans ?_
        have hb := (busyJobs_set_idle s.workers i j hbusy).map (process analyzer)
        simp only [List.map_cons] at hb
        refine (hb.append_left (s.pushed ++ s.jobsBuf.map (process analyzer))).trans ?_
        exact (perm_right_out _ _ _ _).trans (perm_push_out _ _ _ _).symm
      · intro h
        rcases List.mem_or_eq_of_mem_set h with hm | he
        · exact ih.doneClosed hm
        · simp at he
      · intro hall
        exfalso
        have hset := getElem?_set_same WorkerPhase.idle hbusy
        have hmem := getElem?_some_mem hset
        have := hall _ hmem
        simp at this
      · intro h
        obtain ⟨hd, _, _⟩ := ih.closedFacts h
        have hmem := getElem?_some_mem hbusy
        have := hd _ hmem
        simp at this
    | workerExitClosed i hidle hclosed hempty =>
      refine ⟨ih.ctxFalse, ?_, ih.capJ, ih.fifo, ?_, ?_, ?_, ?_⟩
      · simpa [List.length_set] using ih.wlen
      · rw [busyJobs_set_done s.workers i hidle]
        exact ih.perm
      · intro _; exact hclosed
      · intro _; exact hempty
      · intro h
        obtain ⟨hd, hc, he⟩ := ih.closedFacts h
        refine ⟨?_, hc, he⟩
        intro ph hm
        rcases List.mem_or_eq_of_mem_set hm with hm' | he'
        · exact hd _ hm'
        · exact he'
    | workerExitCancelled i hidle hcancel =>
      exfalso
      have h1 := ih.ctxFalse
      rw [hcancel] at h1
      exact Bool.noConfusion h1
    | closeResults hclosed hdone hnot =>
      refine ⟨ih.ctxFalse, ih.wlen, ih.capJ, ih.fifo, ih.perm, ih.doneClosed,
        ih.allDoneEmpty, ?_⟩
      intro _
      exact ⟨hdone, hclosed, ih.allDoneEmpty hdone⟩
    | consumerTake r rest hbuf =>
      refine ⟨ih.ctxFalse, ih.wlen, ih.capJ, ?_, ih.perm, ih.doneClosed,
        ih.allDoneEmpty, ?_⟩
      · rw [ih.fifo, hbuf]
        simp
      · intro h
        exact ih.closedFacts h

/-! ## Claim theorems: graceful shutdown and Submit-after-Shutdown -/

/-- **C1.** Under graceful shutdown, in every reachable state in which
the results channel has been closed: the results delivered to the
consumer followed by the ones still buffered are exactly one result per
accepted job (a permutation of `process` over the accepted jobs, hence
exactly N results for N accepted jobs), and no step from such a state
can push a further result — the channel closed strictly after the last
push, so a consumer reading until closure observes every emitted result
exactly once. -/
theorem pool_graceful_shutdown_exactly_once
    (analyzer : String → Except GoError Metadata) (w : Nat) (s : PoolState)
    (hr : Reachable analyzer w s) (hclosed : s.resultsClosed = true) :
    (s.consumed ++ s.resultsBuf).Perm (s.accepted.map (process analyzer))
    ∧ (s.consumed ++ s.resultsBuf).length = s.accepted.length
    ∧ ∀ e s2, Step analyzer s e s2 → s2.pushed = s.pushed := by
  have inv := reachable_inv analyzer w s hr
  obtain ⟨hd, hc, he⟩ := inv.closedFacts hclosed
  have hbz : busyJobs s.workers = [] := busyJobs_eq_nil_of_all_done hd
  have hperm := inv.perm
  rw [he, hbz] at hperm
  simp only [List.map_nil, List.append_nil] at hperm
  have hfifo := inv.fifo
  refine ⟨?_, ?_, ?_⟩
  · rw [← hfifo]
    exact hperm.symm
  · rw [← hfifo]
    have hlen := hperm.length_eq
    simp only [List.length_map] at hlen
    omega
  · intro e s2 hstep
    cases hstep with
    | submitTrue j hopen hcap => rfl
    | submitFalse j hcancel => rfl
    | submitOnClosed j hclosed2 => rfl
    | shutdownCloseJobs hopen => rfl
    | workerTake i j rest hidle hbuf => rfl
    | workerFinish i j hbusy hcap =>
      exfalso
      have hmem := getElem?_some_mem hbusy
      have := hd _ hmem
      simp at this
    | workerExitClosed i hidle hclosed2 hempty => rfl
    | workerExitCancelled i hidle hcancel => rfl
    | closeResults hclosed2 hdone hnot => rfl
    | consumerTake r rest hbuf => rfl

/-- A concrete analyzer and job for exercising the pool theorems. -/
def demoAnalyzer : String → Except GoError Metadata := fun _ =>
  .ok { hash := "h", size := 2, extension := ".txt"
        extra := [("mime_type", .str "text/plain")] }

def demoJob : Job := { ctx := none, fileID := "f1", filePath := "/tmp/a.txt" }

/-- The state of a one-worker pool after: submit one job, the worker
takes and finishes it, `Shutdown` closes the jobs channel, the worker
exits, and `Shutdown` closes the results channel. -/
def demoFinal : PoolState :=
  { jobsBuf := [], jobsCap := 2, jobsClosed := true
    resultsBuf := [process demoAnalyzer demoJob], resultsCap := 2
    resultsClosed := true, poolCtxCancelled := false
    workers := [.done], accepted := [demoJob]
    pushed := [process demoAnalyzer demoJob], consumed := []
    submitCrashed := false }

theorem demoFinal_reachable : Reachable demoAnalyzer 1 demoFinal := by
  have h0 : Reachable demoAnalyzer 1 (NewPool 1) := .init
  have h1 := h0.step (Step.submitTrue (NewPool 1) demoJob rfl (by decide))
  have h2 := h1.step (Step.workerTake _ 0 demoJob [] rfl rfl)
  have h3 := h2.step (Step.workerFinish _ 0 demoJob rfl (by decide))
  have h4 := h3.step (Step.shutdownCloseJobs _ rfl)
  have h5 := h4.step (Step.workerExitClosed _ 0 rfl rfl rfl)
  have h6 := h5.step (Step.closeResults _ rfl (by decide) rfl)
  exact h6

/-- Witness for `pool_graceful_shutdown_exactly_once`: a one-worker
pool with one accepted job reaching the closed state with exactly that
job's result delivered. -/
theorem pool_graceful_shutdown_exactly_once_witness :
    (demoFinal.consumed ++ demoFinal.resultsBuf).Perm
      (demoFinal.accepted.map (process demoAnalyzer))
    ∧ (demoFinal.consumed ++ demoFinal.resultsBuf).length =
      demoFinal.accepted.length := by
  have h := pool_graceful_shutdown_exactly_once demoAnalyzer 1 demoFinal
    demoFinal_reachable rfl
  exact ⟨h.1, h.2.1⟩

/-- **C2 (the code at the failing input).** In every reachable state in
which `Shutdown` has begun (the jobs channel is closed), a `Submit`
call cannot return `false` and cannot enqueue: the pool context is
never cancelled — `p.cancel()` has no caller anywhere in the repository
— so the `<-p.ctx.Done()` case of `Submit`'s select never fires, and
the only enabled behaviour is the send on the closed jobs channel,
which panics in the Go runtime without enqueuing the job. -/
theorem submit_after_shutdown_crashes
    (analyzer : String → Except GoError Metadata) (w : Nat) (s : PoolState) (j : Job)
    (hr : Reachable analyzer w s) (hclosed : s.jobsClosed = true) :
    Step analyzer s (.submitOnClosed j) { s with submitCrashed := true }
    ∧ (¬ ∃ s2, Step analyzer s (.submitFalse j) s2)
    ∧ (¬ ∃ s2, Step analyzer s (.submitTrue j) s2) := by
  have inv := reachable_inv analyzer w s hr
  refine ⟨Step.submitOnClosed s j hclosed, ?_, ?_⟩
  · rintro ⟨s2, hstep⟩
    cases hstep
    rename_i hcancel
    have h1 := inv.ctxFalse
    rw [hcancel] at h1
    exact Bool.noConfusion h1
  · rintro ⟨s2, hstep⟩
    cases hstep
    rename_i hopen hcap
    rw [hclosed] at hopen
    exact Bool.noConfusion hopen

/-- The state of a one-worker pool right after `Shutdown` begins. -/
def demoShut : PoolState := { NewPool 1 with jobsClosed := true }

/-- Witness for `submit_after_shutdown_crashes`: the freshly shut-down
one-worker pool. -/
theorem submit_after_shutdown_crashes_witness :
    Step demoAnalyzer demoShut (.submitOnClosed demoJob)
      { demoShut with submitCrashed := true }
    ∧ ¬ ∃ s2, Step demoAnalyzer demoShut (.submitFalse demoJob) s2 := by
  have hreach : Reachable demoAnalyzer 1 demoShut :=
    Reachable.step Reachable.init (Step.shutdownCloseJobs (NewPool 1) rfl)
  have h := submit_after_shutdown_crashes demoAnalyzer 1 demoShut demoJob hreach rfl
  exact ⟨h.1, h.2.1⟩

end GopherDrive
